import Mathlib

/-!
Verification of the core of `dmon.cpp`: the `FileInfo` tree model, the
directory walk (`FileInfo::walk` / `FileInfo::set_path`), the JSON snapshot
codec (`FileInfo::to_json` / `FileInfo::from_json` / `FileInfo::sort_subs`)
and the diff engine (`FileInfo::diff`).

Modelling conventions:
* `std::string` values (paths) are modelled as `List Char`; C++ string
  comparison is byte-wise lexicographic, modelled by `strLt` below.
* `size_t` and `unsigned` are modelled as `Nat`, with an explicit `% 2^32`
  where the code converts to a 32-bit `unsigned` (rapidjson's
  `writer.Uint(...)` and `value.GetUint()`).  `int type_` is modelled as
  `Nat`: every value the program stores in it comes from the `FileType`
  enum or from `GetUint()`.
* The filesystem seen by `lstat`/`opendir`/`readdir` is modelled by the
  inductive `FsEntry`: a directory entry together with its stat
  classification, its allocated-block count and (for directories) its
  listing in `readdir` order.  An unreadable directory (`opendir` failure)
  behaves exactly like one whose listing is empty, so it is not modelled
  separately.
* JSON documents are modelled by the inductive `JValue`.  rapidjson's
  `GetString`/`GetUint` assert on a value of the wrong type; the model
  totalises them with the type's default, which no theorem below relies on.
* The diagnostic lines printed by `LOG` in `FileInfo::diff` are modelled as
  a returned `List Report`; the human-readable size formatting
  (`readable_size`/`r_sz`) only renders the amount and is not modelled.
-/

/-- C++ `const size_t BLOCK_SIZE = 512`. -/
def BLOCK_SIZE : Nat := 512

/-- C++ `const char SEP = '/'`. -/
def SEP : Char := '/'

/-- Byte-wise lexicographic `<` of C++ `std::string::operator<`,
on the `List Char` model of strings. -/
def strLt : List Char → List Char → Bool
  | _, [] => false
  | [], _ :: _ => true
  | a :: as, b :: bs =>
    if a < b then true
    else if b < a then false
    else strLt as bs

/-- Non-strict counterpart of `strLt` (total order complement). -/
def strLe (a b : List Char) : Bool := !(strLt b a)

/-- C++ `join_path(prefix, postfix)`: concatenation, inserting `SEP`
unless the first part already ends with it. -/
def join_path (pre post : List Char) : List Char :=
  let hasSep := !pre.isEmpty && pre.getLast? = some SEP
  if hasSep then pre ++ post else pre ++ [SEP] ++ post

/-- C++ enum `FILE_TYPE_UNKNOWN = 0`. -/
def FILE_TYPE_UNKNOWN : Nat := 0
/-- C++ enum `FILE_TYPE_REGULAR = 1`. -/
def FILE_TYPE_REGULAR : Nat := 1
/-- C++ enum `FILE_TYPE_DIRECTORY = 2`. -/
def FILE_TYPE_DIRECTORY : Nat := 2
/-- C++ enum `FILE_TYPE_LINK = 3`. -/
def FILE_TYPE_LINK : Nat := 3

/-- C++ `struct FileInfo`: fields `size_`, `path_`, `sub_files_`, `type_`.
The exclusive-ownership `std::vector<FileInfo *>` is modelled as a plain
`List FileInfo`. -/
@[ext]
structure FileInfo where
  size_ : Nat
  path_ : List Char
  sub_files_ : List FileInfo
  type_ : Nat

/-- The `FileInfo()` default constructor: `size_ = 0`, `type_ = FILE_TYPE_UNKNOWN`,
empty path and no children. -/
def FileInfo.init : FileInfo := ⟨0, [], [], FILE_TYPE_UNKNOWN⟩

/-- The comparison `FileInfo::PathLess` (`lhs->path_ < rhs->path_`) used by
`sort_subs`, as a non-strict Boolean relation for the model's sort. -/
def lePath (a b : FileInfo) : Bool := strLe a.path_ b.path_

/-- C++ `FileInfo::sort_subs()`: `std::sort(sub_files_, PathLess())`.
`std::sort` produces some permutation ordered by `path_`; the model fixes
the (otherwise unspecified) order of equal paths by using a stable
insertion sort keyed the same way. -/
def sort_subs (l : List FileInfo) : List FileInfo :=
  List.insertionSort (fun a b => lePath a b = true) l

/-- The rapidjson JSON value model (`GenericValue`): null, bool, number
(non-negative integers suffice for this program, which only ever writes
`Uint`s), string, array, object (ordered member list). -/
inductive JValue where
  | jnull
  | jbool (b : Bool)
  | jnum (n : Nat)
  | jstr (s : List Char)
  | jarr (elems : List JValue)
  | jobj (members : List (List Char × JValue))

/-- rapidjson `value.GetString()/GetStringLength()` as used by `from_json`;
asserts on non-strings in C++, totalised here with the empty string. -/
def JValue.getString : JValue → List Char
  | .jstr s => s
  | _ => []

/-- rapidjson `value.GetUint()` as used by `from_json`; returns a 32-bit
`unsigned`.  Asserts on a non-`Uint` value in C++, totalised here by
reducing modulo `2^32`. -/
def JValue.getUint : JValue → Nat
  | .jnum n => n % 2 ^ 32
  | _ => 0

mutual

/-- C++ `FileInfo::to_json(writer)`: writes an object with members
`path`, `size` (via `writer.Uint`, i.e. `size_` converted to 32-bit
`unsigned`), `type` (likewise through `Uint`), and — only when
`sub_files_` is non-empty — `subs`, the children in memory order. -/
def FileInfo.to_json : FileInfo → JValue
  | ⟨size, path, subs, ty⟩ =>
    .jobj ([("path".data, .jstr path),
            ("size".data, .jnum (size % 2 ^ 32)),
            ("type".data, .jnum (ty % 2 ^ 32))] ++
           (if subs.isEmpty then []
            else [("subs".data, .jarr (subsToJson subs))]))

/-- The serialisation of the `sub_files_` array element by element
(the `for` loop inside the `subs` branch of `to_json`). -/
def subsToJson : List FileInfo → List JValue
  | [] => []
  | f :: fs => f.to_json :: subsToJson fs

end

mutual

/-- C++ `FileInfo::from_json(const JValue &)`: fails (returns `false`)
iff the value is not an object; otherwise it folds the member loop over a
default-constructed node. -/
def fromJsonV : JValue → Option FileInfo
  | .jobj ms => some (foldMembers FileInfo.init ms)
  | _ => none

/-- The member loop of `FileInfo::from_json(JValue)`, threading the node
being filled through the members in document order. -/
def foldMembers : FileInfo → List (List Char × JValue) → FileInfo
  | fi, [] => fi
  | fi, (name, value) :: rest =>
    foldMembers (applyMember fi name value) rest

/-- One iteration of the member loop in `FileInfo::from_json(JValue)`:
`path`/`size`/`type` assign the corresponding field; `subs` (when the
value is an array) parses each element, discarding elements that fail
(`if (!sub->from_json(...)) delete sub; else push_back`), appends the
survivors and then calls `sort_subs`; a non-array `subs` (warning only)
and any unrecognised member name leave the node unchanged. -/
def applyMember : FileInfo → List Char → JValue → FileInfo
  | fi, name, value =>
    if name = "path".data then { fi with path_ := value.getString }
    else if name = "size".data then { fi with size_ := value.getUint }
    else if name = "type".data then { fi with type_ := value.getUint }
    else if name = "subs".data then
      match value with
      | .jarr elems =>
        { fi with sub_files_ := sort_subs (fi.sub_files_ ++ parseSubs elems) }
      | _ => fi
    else fi

/-- The element loop of the `subs` branch: each element that parses is
kept, each that fails is dropped, order preserved. -/
def parseSubs : List JValue → List FileInfo
  | [] => []
  | e :: es =>
    match fromJsonV e with
    | some f => f :: parseSubs es
    | none => parseSubs es

end

/-- C++ `FileInfo::from_json(const std::string &file_path)` after the I/O:
`none` in place of the parse result models `doc.HasParseError()` (and the
`fopen` failure), which makes the load fail; otherwise the value-level
`from_json` decides. -/
def deserialize : Option JValue → Option FileInfo
  | none => none
  | some v => fromJsonV v

/-- One diagnostic line emitted by `FileInfo::diff` through `LOG`:
`rnew` is `"%s\tnew +%s"`, `rdel` is `"%s\tdel -%s"`, `rgrow` is
`"%s\t+%s"`.  The amount is kept as the raw byte count; `r_sz` only
formats it for display. -/
inductive Report where
  | rnew (path : List Char) (size : Nat)
  | rdel (path : List Char) (size : Nat)
  | rgrow (path : List Char) (inc : Nat)
deriving DecidableEq

mutual

/-- C++ `FileInfo::diff(older)` (the receiver is the newer tree), as the
list of lines it prints.  Guard: nothing when `size_ <= older.size_`;
both directories: sorted merge over the children plus the trailing
`newer` loop and the attribution-suppression check; otherwise one growth
line for this path. -/
def diffReports : FileInfo → FileInfo → List Report
  | newer, older =>
    if newer.size_ ≤ older.size_ then []
    else if newer.type_ = FILE_TYPE_DIRECTORY ∧ older.type_ = FILE_TYPE_DIRECTORY then
      let m := mergeLoop newer.sub_files_ older.sub_files_ 0 0
      let change_count := m.2.1
      let rem := m.2.2.2
      let last_inc := rem.foldl (fun _ l => l.size_) m.2.2.1
      let total_inc := newer.size_ - older.size_
      m.1 ++ rem.map (fun l => Report.rnew l.path_ l.size_) ++
        (if change_count = 1 ∧ last_inc = total_inc then []
         else [Report.rgrow newer.path_ total_inc])
    else
      [Report.rgrow newer.path_ (newer.size_ - older.size_)]
termination_by newer _ => (sizeOf newer, 0)
decreasing_by
  cases newer
  simp
  omega

/-- The `while (i < ... && j < ...)` merge loop of `FileInfo::diff`,
threading `change_count` and `last_inc` and returning, in order: the
lines printed during the loop, the final `change_count`, the final
`last_inc`, and the still-unconsumed tail of the newer children (which
the trailing `for` loop then reports; an unconsumed older tail is
dropped, exactly as in the code). -/
def mergeLoop : List FileInfo → List FileInfo → Nat → Nat →
    List Report × Nat × Nat × List FileInfo
  | ls, [], cc, li => ([], cc, li, ls)
  | [], _ :: _, cc, li => ([], cc, li, [])
  | l :: ls, r :: rs, cc, li =>
    if l.path_ = r.path_ then
      let sub := diffReports l r
      let rest := mergeLoop ls rs (cc + if l.size_ ≠ r.size_ then 1 else 0)
        (if r.size_ < l.size_ then l.size_ - r.size_ else li)
      (sub ++ rest.1, rest.2)
    else if strLt l.path_ r.path_ then
      let rest := mergeLoop ls (r :: rs) (if 0 < l.size_ then cc + 1 else cc)
        (if 0 < l.size_ then l.size_ else li)
      (Report.rnew l.path_ l.size_ :: rest.1, rest.2)
    else
      let rest := mergeLoop (l :: ls) rs (if 0 < r.size_ then cc + 1 else cc) li
      (Report.rdel r.path_ r.size_ :: rest.1, rest.2)
termination_by ls rs _ _ => (sizeOf ls, sizeOf rs)
decreasing_by
  · exact Prod.Lex.left _ _ (by simp only [List.cons.sizeOf_spec]; omega)
  · exact Prod.Lex.left _ _ (by simp only [List.cons.sizeOf_spec]; omega)
  · exact Prod.Lex.left _ _ (by simp only [List.cons.sizeOf_spec]; omega)
  · exact Prod.Lex.right _ (by simp only [List.cons.sizeOf_spec]; omega)

end

/-- A filesystem entry as observed through `lstat`/`opendir`/`readdir`:
its name, its stat classification, its `st_blocks` count and — for a
directory — its listing in `readdir` order (without the `.`/`..`
pseudo-entries, which `walk` skips).  `unk` covers both a failing
`lstat` and an unclassifiable mode.  A directory whose `opendir` fails
behaves exactly like one with an empty listing, so it is not a separate
constructor. -/
inductive FsEntry where
  | reg (nm : List Char) (blocks : Nat)
  | lnk (nm : List Char) (blocks : Nat)
  | unk (nm : List Char)
  | dir (nm : List Char) (blocks : Nat) (entries : List FsEntry)

/-- The `d_name` of a directory entry. -/
def FsEntry.name : FsEntry → List Char
  | .reg nm _ => nm
  | .lnk nm _ => nm
  | .unk nm => nm
  | .dir nm _ _ => nm

/-- Whether `set_path` would classify this entry `FILE_TYPE_UNKNOWN`. -/
def FsEntry.isUnk : FsEntry → Bool
  | .unk _ => true
  | _ => false

mutual

/-- C++ `set_path(path)` followed by `walk(depth)` on a fresh node:
`set_path` classifies the entry and takes `st_blocks * BLOCK_SIZE` as the
size; `walk` then (for directories only) iterates the listing. -/
def build : List Char → FsEntry → Int → FileInfo
  | path, .reg _ blocks, _ => ⟨blocks * BLOCK_SIZE, path, [], FILE_TYPE_REGULAR⟩
  | path, .lnk _ blocks, _ => ⟨blocks * BLOCK_SIZE, path, [], FILE_TYPE_LINK⟩
  | path, .unk _, _ => ⟨0, path, [], FILE_TYPE_UNKNOWN⟩
  | path, .dir _ blocks entries, depth =>
    walkEntries path depth entries ⟨blocks * BLOCK_SIZE, path, [], FILE_TYPE_DIRECTORY⟩

/-- The `readdir` loop of `FileInfo::walk`: each entry is built at
`join_path(path_, d_name)`; a child that ends up `FILE_TYPE_UNKNOWN` is
deleted; otherwise it is appended to `sub_files_` only when `depth > 0`,
is recursed into (with `depth - 1`) when it is a directory — which
`build` does unconditionally — and its full size is added to the parent.
No sort is performed after the loop. -/
def walkEntries : List Char → Int → List FsEntry → FileInfo → FileInfo
  | _, _, [], fi => fi
  | parent, depth, e :: rest, fi =>
    let child := build (join_path parent e.name) e (depth - 1)
    if child.type_ = FILE_TYPE_UNKNOWN then
      walkEntries parent depth rest fi
    else
      walkEntries parent depth rest
        { fi with size_ := fi.size_ + child.size_,
                  sub_files_ := fi.sub_files_ ++ (if 0 < depth then [child] else []) }

end

mutual

/-- Reference definition (the spec's "full recursive total of the
underlying tree"): an entry's own allocated size plus, for a directory,
the recursively aggregated size of every non-unknown descendant.  Used
only to compare against what `build` computes. -/
def fsSize : FsEntry → Nat
  | .reg _ blocks => blocks * BLOCK_SIZE
  | .lnk _ blocks => blocks * BLOCK_SIZE
  | .unk _ => 0
  | .dir _ blocks entries => blocks * BLOCK_SIZE + fsSizeList entries

/-- Sum of `fsSize` over a listing. -/
def fsSizeList : List FsEntry → Nat
  | [] => 0
  | e :: es => fsSize e + fsSizeList es

end

mutual

/-- The invariants every tree the program itself serialises satisfies
after deserialisation: every node's `size_` and `type_` fit in a 32-bit
`unsigned`, and every `sub_files_` sequence is sorted by path. -/
def wf : FileInfo → Bool
  | ⟨size, _, subs, ty⟩ =>
    decide (size < 2 ^ 32) && decide (ty < 2 ^ 32) && sortedSubs subs && wfList subs

/-- `wf` for every node of a child list. -/
def wfList : List FileInfo → Bool
  | [] => true
  | f :: fs => wf f && wfList fs

/-- Adjacent-pairs path-sortedness of a child list. -/
def sortedSubs : List FileInfo → Bool
  | [] => true
  | [_] => true
  | a :: b :: rest => lePath a b && sortedSubs (b :: rest)

end

mutual

/-- `ScrambledDoc fi v`: `v` is the serialisation of `fi` with, at every
node, the object's members listed in an arbitrary order and interleaved
with extra members whose names are none of `path`/`size`/`type`/`subs`
(the claim's "member order scrambled or unknown extra members"). -/
inductive ScrambledDoc : FileInfo → JValue → Prop where
  | mk (fi : FileInfo) (subsDocs : List JValue)
      (extras ms : List (List Char × JValue)) :
      ScrambledSubs fi.sub_files_ subsDocs →
      (∀ p ∈ extras, p.1 ≠ "path".data ∧ p.1 ≠ "size".data ∧
        p.1 ≠ "type".data ∧ p.1 ≠ "subs".data) →
      ms.Perm (([("path".data, .jstr fi.path_),
                 ("size".data, .jnum (fi.size_ % 2 ^ 32)),
                 ("type".data, .jnum (fi.type_ % 2 ^ 32))] ++
                (if fi.sub_files_.isEmpty then []
                 else [("subs".data, .jarr subsDocs)])) ++ extras) →
      ScrambledDoc fi (.jobj ms)

/-- Pointwise `ScrambledDoc` over a `subs` array (children stay in the
serialised order; the codec re-sorts them anyway). -/
inductive ScrambledSubs : List FileInfo → List JValue → Prop where
  | nil : ScrambledSubs [] []
  | cons {fi v fis vs} : ScrambledDoc fi v → ScrambledSubs fis vs →
      ScrambledSubs (fi :: fis) (v :: vs)

end

example : fromJsonV (.jobj []) = some FileInfo.init := by rfl

example :
    fromJsonV (.jobj [("size".data, .jnum 7), ("path".data, .jstr "a".data)]) =
      some ⟨7, "a".data, [], 0⟩ := by rfl

example :
    (FileInfo.to_json ⟨7, "a".data, [], 1⟩) =
      .jobj [("path".data, .jstr "a".data), ("size".data, .jnum 7),
             ("type".data, .jnum 1)] := by rfl

example :
    fromJsonV (FileInfo.to_json ⟨7, "a".data, [⟨3, "a/b".data, [], 1⟩], 2⟩) =
      some ⟨7, "a".data, [⟨3, "a/b".data, [], 1⟩], 2⟩ := by rfl

example :
    diffReports
      ⟨200, "/d".data, [⟨100, "/d/a".data, [], 1⟩, ⟨50, "/d/b".data, [], 1⟩], 2⟩
      ⟨150, "/d".data, [⟨100, "/d/a".data, [], 1⟩], 2⟩ =
      [.rnew "/d/b".data 50, .rgrow "/d".data 50] := by
  simp +decide [diffReports, mergeLoop]

theorem strLt_nil : ∀ a : List Char, strLt a [] = false := by
  intro a
  cases a <;> rfl

theorem strLt_asymm : ∀ {a b : List Char}, strLt a b = true → strLt b a = false := by
  intro a
  induction a with
  | nil =>
    intro b _
    exact strLt_nil b
  | cons x xs ih =>
    intro b h
    cases b with
    | nil => rw [strLt_nil] at h; exact absurd h (by simp)
    | cons y ys =>
      by_cases h1 : x < y
      · have h2 : ¬ y < x := lt_asymm h1
        simp [strLt, h1, h2]
      · by_cases h2 : y < x
        · rw [strLt, if_neg h1, if_pos h2] at h
          exact absurd h (by simp)
        · have hxy : x = y := le_antisymm (not_lt.mp h2) (not_lt.mp h1)
          subst hxy
          rw [strLt, if_neg h1, if_neg h1] at h
          rw [strLt, if_neg h1, if_neg h1]
          exact ih h

theorem strLt_trans : ∀ {a b c : List Char},
    strLt a b = true → strLt b c = true → strLt a c = true := by
  intro a
  induction a with
  | nil =>
    intro b c hab hbc
    cases c with
    | nil => cases b with
      | nil => exact hab
      | cons y ys => rw [strLt_nil] at hbc; exact absurd hbc (by simp)
    | cons z zs => rfl
  | cons x xs ih =>
    intro b c hab hbc
    cases b with
    | nil => rw [strLt_nil] at hab; exact absurd hab (by simp)
    | cons y ys =>
      cases c with
      | nil => rw [strLt_nil] at hbc; exact absurd hbc (by simp)
      | cons z zs =>
        rw [strLt] at hab hbc ⊢
        by_cases hxy : x < y
        · by_cases hyz : y < z
          · rw [if_pos (lt_trans hxy hyz)]
          · by_cases hzy : z < y
            · rw [if_neg hyz, if_pos hzy] at hbc
              exact absurd hbc (by simp)
            · have : y = z := le_antisymm (not_lt.mp hzy) (not_lt.mp hyz)
              subst this
              rw [if_pos hxy]
        · by_cases hyx : y < x
          · rw [if_neg hxy, if_pos hyx] at hab
            exact absurd hab (by simp)
          · have hxyeq : x = y := le_antisymm (not_lt.mp hyx) (not_lt.mp hxy)
            subst hxyeq
            rw [if_neg hxy, if_neg hxy] at hab
            by_cases hyz : x < z
            · rw [if_pos hyz]
            · by_cases hzy : z < x
              · rw [if_neg hyz, if_pos hzy] at hbc
                exact absurd hbc (by simp)
              · have : x = z := le_antisymm (not_lt.mp hzy) (not_lt.mp hyz)
                subst this
                rw [if_neg hyz, if_neg hyz] at hbc ⊢
                exact ih hab hbc

theorem strLt_connex : ∀ {a b : List Char},
    strLt a b = false → strLt b a = false → a = b := by
  intro a
  induction a with
  | nil =>
    intro b hab _
    cases b with
    | nil => rfl
    | cons y ys => exact absurd hab (by simp [strLt])
  | cons x xs ih =>
    intro b hab hba
    cases b with
    | nil => exact absurd hba (by simp [strLt])
    | cons y ys =>
      rw [strLt] at hab hba
      by_cases hxy : x < y
      · rw [if_pos hxy] at hab
        exact absurd hab (by simp)
      · by_cases hyx : y < x
        · rw [if_pos hyx] at hba
          exact absurd hba (by simp)
        · have hxyeq : x = y := le_antisymm (not_lt.mp hyx) (not_lt.mp hxy)
          subst hxyeq
          rw [if_neg hxy, if_neg hxy] at hab hba
          rw [ih hab hba]

theorem lePath_total : ∀ a b : FileInfo, lePath a b = true ∨ lePath b a = true := by
  intro a b
  unfold lePath strLe
  by_cases h : strLt b.path_ a.path_ = true
  · right
    rw [strLt_asymm h]
    rfl
  · left
    rw [Bool.not_eq_true] at h
    rw [h]
    rfl

theorem lePath_trans : ∀ a b c : FileInfo,
    lePath a b = true → lePath b c = true → lePath a c = true := by
  intro a b c hab hbc
  unfold lePath strLe at hab hbc ⊢
  rw [Bool.not_eq_eq_eq_not, Bool.not_true] at hab hbc ⊢
  by_cases hca : strLt c.path_ a.path_ = true
  · by_cases h1 : strLt a.path_ b.path_ = true
    · have := strLt_trans hca h1
      rw [this] at hbc
      exact absurd hbc (by simp)
    · rw [Bool.not_eq_true] at h1
      have : a.path_ = b.path_ := strLt_connex h1 hab
      rw [← this] at hbc
      rw [hbc] at hca
      exact absurd hca (by simp)
  · rwa [Bool.not_eq_true] at hca

instance lePathTrans : IsTrans FileInfo (fun a b => lePath a b = true) :=
  ⟨lePath_trans⟩

instance lePathTotal : IsTotal FileInfo (fun a b => lePath a b = true) :=
  ⟨lePath_total⟩

theorem sortedSubs_iff_chain : ∀ l : List FileInfo,
    sortedSubs l = true ↔ List.Chain' (fun a b => lePath a b = true) l
  | [] => by simp [sortedSubs]
  | [_] => by simp [sortedSubs]
  | a :: b :: rest => by
    have ih := sortedSubs_iff_chain (b :: rest)
    simp [sortedSubs, List.chain'_cons, ih, Bool.and_eq_true]

theorem sortedSubs_iff_pairwise (l : List FileInfo) :
    sortedSubs l = true ↔ List.Pairwise (fun a b => lePath a b = true) l := by
  rw [sortedSubs_iff_chain]
  exact List.chain'_iff_pairwise

theorem sort_subs_pairwise (l : List FileInfo) :
    List.Pairwise (fun a b => lePath a b = true) (sort_subs l) :=
  List.sorted_insertionSort _ l

theorem sort_subs_of_pairwise {l : List FileInfo}
    (h : List.Pairwise (fun a b => lePath a b = true) l) : sort_subs l = l :=
  List.Sorted.insertionSort_eq h

theorem wfList_mem : ∀ {l : List FileInfo}, wfList l = true → ∀ f ∈ l, wf f = true := by
  intro l
  induction l with
  | nil => intro _ f hf; exact absurd hf (by simp)
  | cons a as ih =>
    intro h f hf
    rw [wfList, Bool.and_eq_true] at h
    rcases List.mem_cons.mp hf with rfl | hmem
    · exact h.1
    · exact ih h.2 f hmem

theorem wf_fields {fi : FileInfo} (h : wf fi = true) :
    fi.size_ < 2 ^ 32 ∧ fi.type_ < 2 ^ 32 ∧
      List.Pairwise (fun a b => lePath a b = true) fi.sub_files_ ∧
      ∀ f ∈ fi.sub_files_, wf f = true := by
  cases fi with
  | mk size path subs ty =>
    rw [wf] at h
    simp only [Bool.and_eq_true, decide_eq_true_eq] at h
    exact ⟨h.1.1.1, h.1.1.2, (sortedSubs_iff_pairwise subs).mp h.1.2,
      wfList_mem h.2⟩

theorem sizeOf_mem_sub_files {f fi : FileInfo} (h : f ∈ fi.sub_files_) :
    sizeOf f < sizeOf fi := by
  cases fi with
  | mk size path subs ty =>
    have := List.sizeOf_lt_of_mem h
    simp only [FileInfo.mk.sizeOf_spec]
    simp only [FileInfo.sub_files_] at this
    omega

example :
    (build "/r".data (.dir "r".data 1 [.reg "b".data 1, .reg "a".data 1]) 1).sub_files_.map
      (fun f => f.path_) = ["/r/b".data, "/r/a".data] := by decide

theorem walkEntries_type : ∀ (p : List Char) (d : Int) (es : List FsEntry) (fi : FileInfo),
    (walkEntries p d es fi).type_ = fi.type_ := by
  intro p d es
  induction es with
  | nil => intro fi; rfl
  | cons e rest ih =>
    intro fi
    rw [walkEntries]
    by_cases h : (build (join_path p e.name) e (d - 1)).type_ = FILE_TYPE_UNKNOWN
    · rw [if_pos h]
      exact ih fi
    · rw [if_neg h]
      exact ih _

theorem build_type_unk : ∀ (p : List Char) (e : FsEntry) (d : Int),
    ((build p e d).type_ = FILE_TYPE_UNKNOWN ↔ e.isUnk = true) := by
  intro p e d
  cases e with
  | reg nm blocks => simp [build, FsEntry.isUnk, FILE_TYPE_UNKNOWN, FILE_TYPE_REGULAR]
  | lnk nm blocks => simp [build, FsEntry.isUnk, FILE_TYPE_UNKNOWN, FILE_TYPE_LINK]
  | unk nm => simp [build, FsEntry.isUnk]
  | dir nm blocks entries =>
    rw [build, walkEntries_type]
    simp [FsEntry.isUnk, FILE_TYPE_UNKNOWN, FILE_TYPE_DIRECTORY]

theorem walkEntries_sub_files : ∀ (p : List Char) (d : Int) (es : List FsEntry) (fi : FileInfo),
    (walkEntries p d es fi).sub_files_ =
      fi.sub_files_ ++
        (if 0 < d then
          (es.filter (fun e => !e.isUnk)).map (fun e => build (join_path p e.name) e (d - 1))
        else []) := by
  intro p d es
  induction es with
  | nil =>
    intro fi
    rw [walkEntries]
    by_cases hd : (0 : Int) < d <;> simp [hd]
  | cons e rest ih =>
    intro fi
    rw [walkEntries]
    by_cases h : (build (join_path p e.name) e (d - 1)).type_ = FILE_TYPE_UNKNOWN
    · rw [if_pos h, ih fi]
      have hu : e.isUnk = true := (build_type_unk (join_path p e.name) e (d - 1)).mp h
      simp [hu]
    · rw [if_neg h, ih _]
      have hu : e.isUnk = false := by
        rcases Bool.eq_false_or_eq_true e.isUnk with ht | hf
        · exact absurd ((build_type_unk (join_path p e.name) e (d - 1)).mpr ht) h
        · exact hf
      by_cases hd : (0 : Int) < d <;> simp [hu, hd]

mutual

theorem build_size : ∀ (p : List Char) (e : FsEntry) (d : Int),
    (build p e d).size_ = fsSize e
  | _, .reg _ _, _ => rfl
  | _, .lnk _ _, _ => rfl
  | _, .unk _, _ => rfl
  | p, .dir nm blocks entries, d => by
    rw [build, fsSize, walkEntries_size p d entries]

theorem walkEntries_size : ∀ (p : List Char) (d : Int) (es : List FsEntry) (fi : FileInfo),
    (walkEntries p d es fi).size_ = fi.size_ + fsSizeList es
  | _, _, [], fi => by rw [walkEntries, fsSizeList]; omega
  | p, d, e :: rest, fi => by
    rw [walkEntries, fsSizeList]
    cases e with
    | unk nm =>
      have hc : (build (join_path p (FsEntry.unk nm).name) (FsEntry.unk nm) (d - 1)).type_ =
          FILE_TYPE_UNKNOWN := rfl
      rw [if_pos hc, walkEntries_size p d rest fi, fsSize]
      omega
    | reg nm blocks =>
      rw [if_neg (by simp [build, FILE_TYPE_REGULAR, FILE_TYPE_UNKNOWN]),
        walkEntries_size p d rest _]
      simp [build, fsSize]
      omega
    | lnk nm blocks =>
      rw [if_neg (by simp [build, FILE_TYPE_LINK, FILE_TYPE_UNKNOWN]),
        walkEntries_size p d rest _]
      simp [build, fsSize]
      omega
    | dir nm blocks entries =>
      rw [if_neg (by
        rw [build, walkEntries_type]
        simp [FILE_TYPE_DIRECTORY, FILE_TYPE_UNKNOWN])]
      rw [walkEntries_size p d rest _]
      have hb := build_size (join_path p (FsEntry.dir nm blocks entries).name)
        (FsEntry.dir nm blocks entries) (d - 1)
      simp only [FileInfo.size_]
      rw [hb, fsSize]
      omega

end

theorem foldMembers_eq_foldl : ∀ (fi : FileInfo) (ms : List (List Char × JValue)),
    foldMembers fi ms = ms.foldl (fun z p => applyMember z p.1 p.2) fi
  | _, [] => rfl
  | fi, (nm, v) :: rest => by
    rw [foldMembers, List.foldl_cons, foldMembers_eq_foldl _ rest]

theorem foldMembers_append (fi : FileInfo) (xs ys : List (List Char × JValue)) :
    foldMembers fi (xs ++ ys) = foldMembers (foldMembers fi xs) ys := by
  rw [foldMembers_eq_foldl, foldMembers_eq_foldl, foldMembers_eq_foldl, List.foldl_append]

theorem applyMember_unknown (fi : FileInfo) (nm : List Char) (v : JValue)
    (h1 : nm ≠ "path".data) (h2 : nm ≠ "size".data) (h3 : nm ≠ "type".data)
    (h4 : nm ≠ "subs".data) :
    applyMember fi nm v = fi := by
  cases v <;> rw [applyMember, if_neg h1, if_neg h2, if_neg h3, if_neg h4]
  all_goals exact fun elems h => JValue.noConfusion h

theorem foldMembers_extras : ∀ (extras : List (List Char × JValue)) (fi : FileInfo),
    (∀ p ∈ extras, p.1 ≠ "path".data ∧ p.1 ≠ "size".data ∧
      p.1 ≠ "type".data ∧ p.1 ≠ "subs".data) →
    foldMembers fi extras = fi := by
  intro extras
  induction extras with
  | nil => intro fi _; rfl
  | cons p rest ih =>
    intro fi h
    have hp := h p (List.mem_cons_self p rest)
    rw [foldMembers]
    rw [applyMember_unknown fi p.1 p.2 hp.1 hp.2.1 hp.2.2.1 hp.2.2.2]
    exact ih fi (fun q hq => h q (List.mem_cons_of_mem p hq))

theorem foldMembers_core (size ty : Nat) (path : List Char) :
    foldMembers FileInfo.init
      [("path".data, .jstr path), ("size".data, .jnum size), ("type".data, .jnum ty)] =
      ⟨size % 2 ^ 32, path, [], ty % 2 ^ 32⟩ := rfl

theorem foldMembers_subs_arr (fi : FileInfo) (elems : List JValue) :
    foldMembers fi [("subs".data, .jarr elems)] =
      { fi with sub_files_ := sort_subs (fi.sub_files_ ++ parseSubs elems) } := rfl

theorem sizeOf_ge_one (fi : FileInfo) : 1 ≤ sizeOf fi := by
  cases fi with
  | mk a b c d =>
    simp only [FileInfo.mk.sizeOf_spec]
    omega

theorem parseSubs_of_scrambledSubs : ∀ {fis : List FileInfo} {vs : List JValue},
    ScrambledSubs fis vs →
    (∀ f ∈ fis, ∀ w, ScrambledDoc f w → fromJsonV w = some f) →
    parseSubs vs = fis := by
  intro fis
  induction fis with
  | nil =>
    intro vs hs _
    cases hs
    rfl
  | cons f fs ih =>
    intro vs hs hrec
    cases hs with
    | cons hd tl =>
      rw [parseSubs]
      rw [hrec f (List.mem_cons_self f fs) _ hd]
      rw [ih tl (fun g hg w hw => hrec g (List.mem_cons_of_mem f hg) w hw)]

theorem fromJson_scrambled : ∀ (n : Nat) (fi : FileInfo) (v : JValue),
    sizeOf fi ≤ n → wf fi = true → ScrambledDoc fi v → fromJsonV v = some fi := by
  intro n
  induction n with
  | zero =>
    intro fi v hsz _ _
    have := sizeOf_ge_one fi
    omega
  | succ n ih =>
    intro fi v hsz hwf hs
    obtain ⟨hsize, htype, hsorted, hwfsubs⟩ := wf_fields hwf
    cases hs with
    | mk _ subsDocs extras ms hsubs hex hperm =>
      rw [fromJsonV]
      refine congrArg some ?_
      by_cases hempty : fi.sub_files_.isEmpty
      · rw [if_pos hempty, List.append_nil] at hperm
        have hcomm : ∀ x ∈ ms, ∀ y ∈ ms, ∀ z : FileInfo,
            applyMember (applyMember z x.1 x.2) y.1 y.2 =
              applyMember (applyMember z y.1 y.2) x.1 x.2 := by
          intro x hx y hy z
          by_cases hxe : x ∈ extras
          · have h4 := hex x hxe
            have hstep : ∀ z' : FileInfo, applyMember z' x.1 x.2 = z' := fun z' =>
              applyMember_unknown z' x.1 x.2 h4.1 h4.2.1 h4.2.2.1 h4.2.2.2
            rw [hstep, hstep]
          · by_cases hye : y ∈ extras
            · have h4 := hex y hye
              have hstep : ∀ z' : FileInfo, applyMember z' y.1 y.2 = z' := fun z' =>
                applyMember_unknown z' y.1 y.2 h4.1 h4.2.1 h4.2.2.1 h4.2.2.2
              rw [hstep, hstep]
            · have hxc := hperm.mem_iff.mp hx
              have hyc := hperm.mem_iff.mp hy
              rw [List.mem_append] at hxc hyc
              rcases hxc with hxc | hxc
              · rcases hyc with hyc | hyc
                · simp only [List.mem_cons, List.not_mem_nil, or_false] at hxc hyc
                  rcases hxc with rfl | rfl | rfl <;> rcases hyc with rfl | rfl | rfl <;> rfl
                · exact absurd hyc hye
              · exact absurd hxc hxe
        rw [foldMembers_eq_foldl,
          @List.Perm.foldl_eq' FileInfo (List Char × JValue)
            (fun z p => applyMember z p.1 p.2) _ _ hperm hcomm FileInfo.init,
          ← foldMembers_eq_foldl, foldMembers_append,
          foldMembers_extras extras _ hex, foldMembers_core]
        have hsub0 : fi.sub_files_ = [] := List.isEmpty_iff.mp hempty
        apply FileInfo.ext
        · dsimp only
          omega
        · rfl
        · dsimp only
          exact hsub0.symm
        · dsimp only
          omega
      · rw [if_neg hempty] at hperm
        have hcomm : ∀ x ∈ ms, ∀ y ∈ ms, ∀ z : FileInfo,
            applyMember (applyMember z x.1 x.2) y.1 y.2 =
              applyMember (applyMember z y.1 y.2) x.1 x.2 := by
          intro x hx y hy z
          by_cases hxe : x ∈ extras
          · have h4 := hex x hxe
            have hstep : ∀ z' : FileInfo, applyMember z' x.1 x.2 = z' := fun z' =>
              applyMember_unknown z' x.1 x.2 h4.1 h4.2.1 h4.2.2.1 h4.2.2.2
            rw [hstep, hstep]
          · by_cases hye : y ∈ extras
            · have h4 := hex y hye
              have hstep : ∀ z' : FileInfo, applyMember z' y.1 y.2 = z' := fun z' =>
                applyMember_unknown z' y.1 y.2 h4.1 h4.2.1 h4.2.2.1 h4.2.2.2
              rw [hstep, hstep]
            · have hxc := hperm.mem_iff.mp hx
              have hyc := hperm.mem_iff.mp hy
              rw [List.mem_append] at hxc hyc
              rcases hxc with hxc | hxc
              · rcases hyc with hyc | hyc
                · simp only [List.mem_append, List.mem_cons, List.not_mem_nil,
                    or_false] at hxc hyc
                  rcases hxc with (rfl | rfl | rfl) | rfl <;>
                    rcases hyc with (rfl | rfl | rfl) | rfl <;> rfl
                · exact absurd hyc hye
              · exact absurd hxc hxe
        have hparse : parseSubs subsDocs = fi.sub_files_ := by
          refine parseSubs_of_scrambledSubs hsubs ?_
          intro f hf w hw
          have hlt := sizeOf_mem_sub_files hf
          exact ih f w (by omega) (hwfsubs f hf) hw
        rw [foldMembers_eq_foldl,
          @List.Perm.foldl_eq' FileInfo (List Char × JValue)
            (fun z p => applyMember z p.1 p.2) _ _ hperm hcomm FileInfo.init,
          ← foldMembers_eq_foldl, foldMembers_append,
          foldMembers_extras extras _ hex, foldMembers_append,
          foldMembers_core, foldMembers_subs_arr, hparse]
        apply FileInfo.ext
        · dsimp only
          omega
        · rfl
        · dsimp only
          rw [List.nil_append, sort_subs_of_pairwise hsorted]
        · dsimp only
          omega

theorem applyMember_pairwise (fi : FileInfo) (nm : List Char) (v : JValue)
    (h : List.Pairwise (fun a b => lePath a b = true) fi.sub_files_) :
    List.Pairwise (fun a b => lePath a b = true) (applyMember fi nm v).sub_files_ := by
  by_cases h1 : nm = "path".data
  · subst h1
    cases v <;> exact h
  · by_cases h2 : nm = "size".data
    · subst h2
      cases v <;> exact h
    · by_cases h3 : nm = "type".data
      · subst h3
        cases v <;> exact h
      · by_cases h4 : nm = "subs".data
        · subst h4
          cases v with
          | jarr elems => exact sort_subs_pairwise _
          | jnull => exact h
          | jbool b => exact h
          | jnum n => exact h
          | jstr s => exact h
          | jobj ms => exact h
        · rw [applyMember_unknown fi nm v h1 h2 h3 h4]
          exact h

theorem foldMembers_pairwise : ∀ (ms : List (List Char × JValue)) (fi : FileInfo),
    List.Pairwise (fun a b => lePath a b = true) fi.sub_files_ →
    List.Pairwise (fun a b => lePath a b = true) (foldMembers fi ms).sub_files_
  | [], _, h => h
  | (nm, v) :: rest, fi, h =>
    foldMembers_pairwise rest _ (applyMember_pairwise fi nm v h)

/-- C1 (amended): `FileInfo::walk` performs no sort after processing the
directory entries: a walked directory's children sequence is exactly the
non-unknown entries of the `readdir` listing, in listing order (retained
only when the depth is positive).  It is therefore sorted by path exactly
when the listing happens to present them in sorted order; the sort
invariant is established only by `from_json`/`sort_subs`, not by the
walk. -/
theorem C1_walk_children_in_listing_order :
    ∀ (p nm : List Char) (blocks : Nat) (entries : List FsEntry) (d : Int),
      (build p (.dir nm blocks entries) d).sub_files_ =
        if 0 < d then
          (entries.filter (fun e => !e.isUnk)).map
            (fun e => build (join_path p e.name) e (d - 1))
        else [] := by
  intro p nm blocks entries d
  rw [build, walkEntries_sub_files, List.nil_append]

/-- C1 counterexample: a walk over a directory whose `readdir` listing is
`[b, a]` produces children `[/r/b, /r/a]`, which is not sorted ascending
by path — no sort is performed by the Tree Builder. -/
theorem C1_walk_children_unsorted_cex :
    ¬ List.Pairwise (fun a b => lePath a b = true)
      (build "/r".data (.dir "r".data 1 [.reg "b".data 1, .reg "a".data 1]) 1).sub_files_ := by
  decide

/-- C2 counterexample: `deserialize(serialize(T))` is not lossless for
every tree.  A node of size `2^32` comes back with size `0` (the `size`
member is written through rapidjson's 32-bit `writer.Uint`); a node of
type `2^32` comes back with type `0`; and a tree whose children are not
path-sorted comes back with its children reordered (`from_json` re-sorts),
so the nodes at corresponding positions differ. -/
theorem C2_roundtrip_lossy_cex :
    (fromJsonV (FileInfo.to_json ⟨2 ^ 32, "/big".data, [], 1⟩)).map FileInfo.size_ =
        some 0 ∧
      (2 ^ 32 : Nat) ≠ 0 ∧
      (fromJsonV (FileInfo.to_json ⟨0, [], [], 2 ^ 32⟩)).map FileInfo.type_ = some 0 ∧
      (fromJsonV (FileInfo.to_json
            ⟨10, "/d".data, [⟨1, "/d/b".data, [], 1⟩, ⟨2, "/d/a".data, [], 1⟩], 2⟩)).map
          (fun f => f.sub_files_.map FileInfo.path_) =
        some ["/d/a".data, "/d/b".data] ∧
      (⟨10, "/d".data, [⟨1, "/d/b".data, [], 1⟩, ⟨2, "/d/a".data, [], 1⟩], 2⟩ :
          FileInfo).sub_files_.map FileInfo.path_ = ["/d/b".data, "/d/a".data] := by
  refine ⟨rfl, by decide, rfl, rfl, rfl⟩

/-- C2 (amended): the round trip is exact for every well-formed tree —
one in which every node's `size_` and `type_` fit in 32 bits (always true
of trees the program itself built sizes below 4 GiB, and of every
deserialised tree) and every children sequence is path-sorted (true of
every deserialised tree) — and it tolerates, at every node, arbitrary
member order and extra members with unrecognised names. -/
theorem C2_roundtrip_wf_scrambled :
    ∀ (fi : FileInfo) (v : JValue), wf fi = true → ScrambledDoc fi v →
      fromJsonV v = some fi :=
  fun fi v hwf hs => fromJson_scrambled (sizeOf fi) fi v le_rfl hwf hs

/-- C2 witness: a concrete two-node tree, serialised with its members
permuted (`size` before `path`) and an extra unknown member appended,
deserialises back to exactly the original tree. -/
theorem C2_roundtrip_wf_scrambled_witness :
    fromJsonV (.jobj
        [("size".data, .jnum 7),
         ("path".data, .jstr "a".data),
         ("type".data, .jnum 2),
         ("subs".data, .jarr [.jobj [("path".data, .jstr "a/b".data),
                                     ("size".data, .jnum 3),
                                     ("type".data, .jnum 1)]]),
         ("note".data, .jnull)]) =
      some ⟨7, "a".data, [⟨3, "a/b".data, [], 1⟩], 2⟩ :=
  C2_roundtrip_wf_scrambled ⟨7, "a".data, [⟨3, "a/b".data, [], 1⟩], 2⟩ _
    (by decide)
    (ScrambledDoc.mk _ [.jobj [("path".data, .jstr "a/b".data),
                               ("size".data, .jnum 3),
                               ("type".data, .jnum 1)]]
      [("note".data, .jnull)] _
      (ScrambledSubs.cons
        (ScrambledDoc.mk _ [] [] _
          ScrambledSubs.nil
          (fun p hp => absurd hp (List.not_mem_nil p))
          (List.Perm.refl _))
        ScrambledSubs.nil)
      (by
        intro p hp
        rcases List.mem_singleton.mp hp with rfl
        exact ⟨by decide, by decide, by decide, by decide⟩)
      (List.Perm.swap ("path".data, JValue.jstr "a".data) ("size".data, JValue.jnum 7)
        [("type".data, JValue.jnum 2),
         ("subs".data, JValue.jarr
            [JValue.jobj [("path".data, JValue.jstr "a/b".data),
                          ("size".data, JValue.jnum 3),
                          ("type".data, JValue.jnum 1)]]),
         ("note".data, JValue.jnull)]))

/-- C3: in `diff` over two directories with `newer.size_ > older.size_`,
after the merge loop (and the trailing-new loop, whose lines appear
before any parent line and whose iterations overwrite `last_inc`), a
parent-level growth line for this node's path and `newer.size_ -
older.size_` is emitted exactly when NOT (`change_count == 1` and
`last_inc == total_inc`); and on the spec's two-children fixture (both
grown by 50 under a parent grown by 100) the diff emits the two child
lines and also the parent line. -/
theorem C3_attribution_suppression :
    (∀ newer older : FileInfo, older.size_ < newer.size_ →
      newer.type_ = FILE_TYPE_DIRECTORY → older.type_ = FILE_TYPE_DIRECTORY →
      ∀ (lines : List Report) (cc li0 : Nat) (rem : List FileInfo),
        mergeLoop newer.sub_files_ older.sub_files_ 0 0 = (lines, cc, li0, rem) →
        ((cc = 1 ∧ rem.foldl (fun _ l => l.size_) li0 = newer.size_ - older.size_ →
            diffReports newer older =
              lines ++ rem.map (fun l => Report.rnew l.path_ l.size_)) ∧
          (¬(cc = 1 ∧ rem.foldl (fun _ l => l.size_) li0 = newer.size_ - older.size_) →
            diffReports newer older =
              lines ++ rem.map (fun l => Report.rnew l.path_ l.size_) ++
                [Report.rgrow newer.path_ (newer.size_ - older.size_)]))) ∧
      diffReports
        ⟨310, "/d".data, [⟨150, "/d/a".data, [], 1⟩, ⟨150, "/d/b".data, [], 1⟩], 2⟩
        ⟨210, "/d".data, [⟨100, "/d/a".data, [], 1⟩, ⟨100, "/d/b".data, [], 1⟩], 2⟩ =
        [Report.rgrow "/d/a".data 50, Report.rgrow "/d/b".data 50,
         Report.rgrow "/d".data 100] := by
  constructor
  · intro newer older hlt ht1 ht2 lines cc li0 rem hm
    have hng : ¬ newer.size_ ≤ older.size_ := by omega
    constructor
    · intro hsup
      simp only [diffReports, if_neg hng, if_pos (And.intro ht1 ht2), hm]
      rw [if_pos hsup, List.append_nil]
    · intro hsup
      simp only [diffReports, if_neg hng, if_pos (And.intro ht1 ht2), hm]
      rw [if_neg hsup, List.append_assoc]
  · simp +decide [diffReports, mergeLoop]

/-- C3 witness: on the concrete pair newer = directory of size 30 with
one changed child `c` (20 over 10) and older of size 15, the change is
fully attributed to `c` (`change_count = 1`, `last_inc = 15 = total`),
so only the child line appears and the parent line is suppressed. -/
theorem C3_attribution_suppression_witness :
    diffReports ⟨30, "/p".data, [⟨25, "/p/c".data, [], 1⟩], 2⟩
        ⟨15, "/p".data, [⟨10, "/p/c".data, [], 1⟩], 2⟩ =
      [Report.rgrow "/p/c".data 15] ++ [] := by
  have h := (C3_attribution_suppression.1
    ⟨30, "/p".data, [⟨25, "/p/c".data, [], 1⟩], 2⟩
    ⟨15, "/p".data, [⟨10, "/p/c".data, [], 1⟩], 2⟩
    (by decide) rfl rfl
    [Report.rgrow "/p/c".data 15] 1 15 []
    (by simp +decide [mergeLoop, diffReports])).1 (by decide)
  simpa using h

/-- C4 evaluation (the code at the failing input): with older = `/d`
(size 150, child `a` = 100) and newer = `/d` (size 200, children `a` =
100 and the new `b` = 50), the trailing loop reports `b` as new but does
not count it in `change_count` (which stays 0), so the parent line is
emitted even though the single new child fully explains the growth —
`diff` prints both a "new" line and a parent line, where the spec's
single-new-child example expects the parent line to be suppressed.  The
merge loop itself leaves the unconsumed newer tail untouched
(`change_count` and `last_inc` still 0).  A trailing zero-size new child
also overwrites `last_inc` unconditionally, breaking suppression in the
third fixture.  An older-only child past the end of newer's children is
never reported (fourth fixture). -/
theorem C4_trailing_tail_eval :
    diffReports
        ⟨200, "/d".data, [⟨100, "/d/a".data, [], 1⟩, ⟨50, "/d/b".data, [], 1⟩], 2⟩
        ⟨150, "/d".data, [⟨100, "/d/a".data, [], 1⟩], 2⟩ =
      [.rnew "/d/b".data 50, .rgrow "/d".data 50] ∧
      mergeLoop [⟨50, "/d/b".data, [], (1 : Nat)⟩] [] 0 0 =
        ([], 0, 0, [⟨50, "/d/b".data, [], 1⟩]) ∧
      diffReports
          ⟨60, "/f".data, [⟨20, "/f/a".data, [], 1⟩, ⟨0, "/f/z".data, [], 1⟩], 2⟩
          ⟨50, "/f".data, [⟨10, "/f/a".data, [], 1⟩], 2⟩ =
        [.rgrow "/f/a".data 10, .rnew "/f/z".data 0, .rgrow "/f".data 10] ∧
      diffReports ⟨100, "/e".data, [], 2⟩ ⟨90, "/e".data, [⟨10, "/e/z".data, [], 1⟩], 2⟩ =
        [.rgrow "/e".data 10] := by
  refine ⟨?_, ?_, ?_, ?_⟩ <;> simp +decide [diffReports, mergeLoop]

/-- C5: the top-level guard of `diff`: whenever `newer.size_ <=
older.size_` nothing is emitted and no recursion happens for the pair;
in particular `diff(T, T)` emits nothing. -/
theorem C5_growth_guard :
    (∀ newer older : FileInfo, newer.size_ ≤ older.size_ → diffReports newer older = []) ∧
      ∀ t : FileInfo, diffReports t t = [] := by
  have h1 : ∀ newer older : FileInfo, newer.size_ ≤ older.size_ →
      diffReports newer older = [] := by
    intro newer older h
    simp only [diffReports, if_pos h]
  exact ⟨h1, fun t => h1 t t le_rfl⟩

/-- C5 witness: a concrete tie (and the identity pair) emits nothing. -/
theorem C5_growth_guard_witness :
    diffReports ⟨5, "/x".data, [⟨9, "/x/k".data, [], 1⟩], 2⟩ ⟨7, "/x".data, [], 2⟩ = [] :=
  C5_growth_guard.1 ⟨5, "/x".data, [⟨9, "/x/k".data, [], 1⟩], 2⟩ ⟨7, "/x".data, [], 2⟩
    (by decide)

/-- C6: recursion in the walk is unconditional — the built size equals
the full recursive total `fsSize` of the underlying filesystem tree for
every retention depth (the depth gates only the retention of children),
and at retention depth 0 the built node has no children at all. -/
theorem C6_depth_gates_only_retention :
    (∀ (p : List Char) (e : FsEntry) (d : Int), (build p e d).size_ = fsSize e) ∧
      ∀ (p : List Char) (e : FsEntry), (build p e 0).sub_files_ = [] := by
  constructor
  · exact build_size
  · intro p e
    cases e with
    | reg nm blocks => rfl
    | lnk nm blocks => rfl
    | unk nm => rfl
    | dir nm blocks entries =>
      rw [build, walkEntries_sub_files, List.nil_append, if_neg (by omega)]

/-- C7: every successfully deserialised node has a path-sorted children
sequence, whatever the order of the `subs` array in the document; in
particular a document listing its children in reverse order parses to a
node whose children are sorted (`a` before `b`). -/
theorem C7_deserialized_children_sorted :
    (∀ (ms : List (List Char × JValue)) (fi : FileInfo),
        fromJsonV (.jobj ms) = some fi →
        List.Pairwise (fun a b => lePath a b = true) fi.sub_files_) ∧
      fromJsonV (.jobj [("subs".data,
          .jarr [.jobj [("path".data, .jstr "b".data)],
                 .jobj [("path".data, .jstr "a".data)]])]) =
        some ⟨0, [], [⟨0, "a".data, [], 0⟩, ⟨0, "b".data, [], 0⟩], 0⟩ := by
  constructor
  · intro ms fi h
    rw [fromJsonV] at h
    injection h with h
    rw [← h]
    exact foldMembers_pairwise ms FileInfo.init List.Pairwise.nil
  · rfl

/-- C7 witness: the sortedness theorem applied to the reverse-order
document of the second conjunct. -/
theorem C7_deserialized_children_sorted_witness :
    List.Pairwise (fun a b => lePath a b = true)
      (FileInfo.mk 0 [] [⟨0, "a".data, [], 0⟩, ⟨0, "b".data, [], 0⟩] 0).sub_files_ :=
  C7_deserialized_children_sorted.1
    [("subs".data,
      .jarr [.jobj [("path".data, .jstr "b".data)],
             .jobj [("path".data, .jstr "a".data)]])]
    ⟨0, [], [⟨0, "a".data, [], 0⟩, ⟨0, "b".data, [], 0⟩], 0⟩ rfl

/-- C8: value-level deserialisation fails exactly on non-objects; the
file-level load fails exactly when parsing failed or the root is not an
object; inside a `subs` array each element that is not an object is
discarded individually while the rest are parsed and kept (shown both in
general — `parseSubs` is `filterMap` of the node parser — and on a
concrete array mixing valid objects with a number and a string). -/
theorem C8_failure_granularity :
    (∀ v : JValue, (fromJsonV v).isSome = true ↔ ∃ ms, v = .jobj ms) ∧
      (∀ d : Option JValue, (deserialize d).isSome = true ↔
        ∃ ms, d = some (.jobj ms)) ∧
      (∀ es : List JValue, parseSubs es = es.filterMap fromJsonV) ∧
      parseSubs [.jobj [("size".data, .jnum 1)], .jnum 7, .jstr "x".data,
          .jobj [("size".data, .jnum 2)]] =
        [⟨1, [], [], 0⟩, ⟨2, [], [], 0⟩] := by
  have hval : ∀ v : JValue, (fromJsonV v).isSome = true ↔ ∃ ms, v = .jobj ms := by
    intro v
    cases v with
    | jobj ms => exact ⟨fun _ => ⟨ms, rfl⟩, fun _ => rfl⟩
    | jnull =>
      exact ⟨fun h => Bool.noConfusion h, fun hex => JValue.noConfusion hex.choose_spec⟩
    | jbool b =>
      exact ⟨fun h => Bool.noConfusion h, fun hex => JValue.noConfusion hex.choose_spec⟩
    | jnum n =>
      exact ⟨fun h => Bool.noConfusion h, fun hex => JValue.noConfusion hex.choose_spec⟩
    | jstr s =>
      exact ⟨fun h => Bool.noConfusion h, fun hex => JValue.noConfusion hex.choose_spec⟩
    | jarr es =>
      exact ⟨fun h => Bool.noConfusion h, fun hex => JValue.noConfusion hex.choose_spec⟩
  refine ⟨hval, ?_, ?_, rfl⟩
  · intro d
    cases d with
    | none =>
      exact ⟨fun h => Bool.noConfusion h, fun hex => Option.noConfusion hex.choose_spec⟩
    | some v =>
      refine Iff.trans (hval v) ?_
      constructor
      · rintro ⟨ms, rfl⟩
        exact ⟨ms, rfl⟩
      · rintro ⟨ms, h⟩
        exact ⟨ms, Option.some.inj h⟩
  · intro es
    induction es with
    | nil => rfl
    | cons e rest ih =>
      cases e with
      | jobj ms => exact congrArg (List.cons (foldMembers FileInfo.init ms)) ih
      | jnull => exact ih
      | jbool b => exact ih
      | jnum n => exact ih
      | jstr s => exact ih
      | jarr es2 => exact ih

/-- C9: serialisation writes `size_` through a 32-bit unsigned
conversion and deserialisation reads it back as such, so the round trip
returns `size_ % 2^32` at the root of any tree, and preserves `size_`
exactly iff `size_ < 2^32`. -/
theorem C9_size_32bit_truncation :
    ∀ fi : FileInfo,
      (fromJsonV (FileInfo.to_json fi)).map FileInfo.size_ =
          some (fi.size_ % 2 ^ 32) ∧
        ((fromJsonV (FileInfo.to_json fi)).map FileInfo.size_ = some fi.size_ ↔
          fi.size_ < 2 ^ 32) := by
  intro fi
  have hmain : (fromJsonV (FileInfo.to_json fi)).map FileInfo.size_ =
      some (fi.size_ % 2 ^ 32) := by
    cases fi with
    | mk a b c d =>
      rw [FileInfo.to_json]
      by_cases hc : c.isEmpty
      · rw [if_pos hc, List.append_nil, fromJsonV, foldMembers_core]
        refine congrArg some ?_
        dsimp only
        omega
      · rw [if_neg hc, fromJsonV, foldMembers_append, foldMembers_core,
          foldMembers_subs_arr]
        refine congrArg some ?_
        dsimp only
        omega
  refine ⟨hmain, ?_⟩
  rw [hmain]
  constructor
  · intro h
    injection h with h
    omega
  · intro h
    rw [Nat.mod_eq_of_lt h]

/-- C10: node-level deserialisation succeeds on every JSON object; the
empty object yields the constructor defaults (size 0, empty path, no
children, `FILE_TYPE_UNKNOWN`); and the `type` member is not validated
against the enum — any 32-bit unsigned code is stored as-is. -/
theorem C10_no_required_members :
    (∀ ms : List (List Char × JValue), (fromJsonV (.jobj ms)).isSome = true) ∧
      fromJsonV (.jobj []) = some ⟨0, [], [], FILE_TYPE_UNKNOWN⟩ ∧
      ∀ t : Nat, t < 2 ^ 32 →
        fromJsonV (.jobj [("type".data, .jnum t)]) = some ⟨0, [], [], t⟩ := by
  refine ⟨?_, rfl, ?_⟩
  · intro ms
    rw [fromJsonV]
    rfl
  · intro t ht
    rw [fromJsonV]
    refine congrArg some ?_
    have hstep : foldMembers FileInfo.init [("type".data, .jnum t)] =
        ⟨0, [], [], t % 2 ^ 32⟩ := rfl
    rw [hstep, Nat.mod_eq_of_lt ht]

/-- C10 witness: the type code 7 — outside the `FileType` enum — is
accepted and stored unchanged. -/
theorem C10_no_required_members_witness :
    fromJsonV (.jobj [("type".data, .jnum 7)]) = some ⟨0, [], [], 7⟩ :=
  C10_no_required_members.2.2 7 (by decide)
